import Mathlib

/-!
# Verification of the `sqrt` lazy-root library

This file gives a shallow embedding of the core of the `sqrt` Go package
(arbitrary-precision square and cube roots with lazily produced decimal
digits) and proves properties of that embedding.

Conventions used throughout:

* Go `big.Int` values are embedded as `ℤ`.  Go's `big.Int.Div`/`DivMod`
  implement Euclidean division, which matches `Int.ediv`/`Int.emod`.
* Go `int` values are embedded as `ℤ` (or as `ℕ` where the source only
  ever produces non-negative values, noted at each definition).
* Unbounded `for`/`while` loops are embedded as structurally recursive
  functions over an explicit fuel argument; the top-level definitions
  supply a fuel that is proved sufficient for the loop to reach its exit
  condition, so the embedded function agrees with the source loop.
* Stateful closures are embedded as step functions over explicit state
  records.
-/

namespace SqrtGo

/-! ## Root managers (`sqrtManager`, `cubeRootManager`)

The manager state is the pair `(incr, incr2)`.  `sqrtManager` has no
`incr2` field in the source; the embedding carries an inert `0` in that
component, and the square-root operations leave it untouched. -/

/-- Which root is being computed: `sq` for `sqrtManager`, `cb` for
`cubeRootManager`. -/
inductive RootKind where
  | sq
  | cb
deriving DecidableEq

/-- `sqrtManager.Next`: `incr.Add(incr, two)`. -/
def sqrtNext (incr : ℤ) : ℤ := incr + 2

/-- `sqrtManager.NextDigit`: `incr.Sub(incr, one).Mul(incr, ten).Add(incr, one)`. -/
def sqrtNextDigit (incr : ℤ) : ℤ := (incr - 1) * 10 + 1

/-- `sqrtManager.Base`: `result.Set(oneHundred)`. -/
def sqrtBase : ℤ := 100

/-- `cubeRootManager.Next`: `incr.Add(incr, &c.incr2)`, then
`c.incr2.Add(&c.incr2, six)`. -/
def cubeNext (incr incr2 : ℤ) : ℤ × ℤ := (incr + incr2, incr2 + 6)

/-- `cubeRootManager.NextDigit`:
`incr = incr*100 - incr2*45 + 171`, then `incr2 = incr2*10 - 54`. -/
def cubeNextDigit (incr incr2 : ℤ) : ℤ × ℤ :=
  (incr * 100 - incr2 * 45 + 171, incr2 * 10 - 54)

/-- `cubeRootManager.Base`: `result.Set(oneThousand)`. -/
def cubeBase : ℤ := 1000

/-- `newCubeRootManager` initializes `incr2` to 6. -/
def cubeIncr2Init : ℤ := 6

/-- Manager `Next` on the combined state. -/
def mgrNext : RootKind → ℤ × ℤ → ℤ × ℤ
  | .sq, (incr, incr2) => (sqrtNext incr, incr2)
  | .cb, (incr, incr2) => cubeNext incr incr2

/-- Manager `NextDigit` on the combined state. -/
def mgrNextDigit : RootKind → ℤ × ℤ → ℤ × ℤ
  | .sq, (incr, incr2) => (sqrtNextDigit incr, incr2)
  | .cb, (incr, incr2) => cubeNextDigit incr incr2

/-- Manager `Base`. -/
def mgrBase : RootKind → ℤ
  | .sq => sqrtBase
  | .cb => cubeBase

/-- Initial `incr2` component of the manager state (`0` is the inert
placeholder for the square-root manager, which has no `incr2`). -/
def mgrIncr2Init : RootKind → ℤ
  | .sq => 0
  | .cb => cubeIncr2Init

/-- The degree of the root extracted by each manager. -/
def deg : RootKind → ℕ
  | .sq => 2
  | .cb => 3

/-! ## `computeGroupsFromRational`

The source function normalizes `(num, denom)` with two `big.Int` loops
and returns a closure producing base-`base` groups plus a decimal-group
exponent.  The group-producing closure's captured state is embedded as
`GroupState`; the two while loops are embedded with fuel. -/

/-- State captured by the `groups` closure returned by
`computeGroupsFromRational`: the running numerator, the fixed
denominator, and the base. -/
structure GroupState where
  num : ℤ
  denom : ℤ
  base : ℤ
deriving DecidableEq

/-- The first normalization loop of `computeGroupsFromRational`:
`for num.Cmp(denom) < 0 { exp--; num.Mul(num, base) }`.
Returns the final numerator and the (non-positive) exponent delta. -/
def mulNumLoop : ℕ → ℤ → ℤ → ℤ → ℤ × ℤ
  | 0, num, _, _ => (num, 0)
  | fuel + 1, num, denom, base =>
    if num < denom then
      let r := mulNumLoop fuel (num * base) denom base
      (r.1, r.2 - 1)
    else (num, 0)

/-- The second normalization loop of `computeGroupsFromRational`:
`for num.Cmp(denom) >= 0 { exp++; denom.Mul(denom, base) }`.
Returns the final denominator and the (non-negative) exponent delta. -/
def mulDenomLoop : ℕ → ℤ → ℤ → ℤ → ℤ × ℤ
  | 0, _, denom, _ => (denom, 0)
  | fuel + 1, num, denom, base =>
    if denom ≤ num then
      let r := mulDenomLoop fuel num (denom * base) base
      (r.1, r.2 + 1)
    else (denom, 0)

/-- `computeGroupsFromRational`: normalization followed by construction
of the group-producer state.  The fuels `denom.toNat + 1` and
`n2.toNat + 2` are proved sufficient below (`mulNumLoop_spec`,
`mulDenomLoop_spec`), so each loop reaches its source exit condition. -/
def computeGroupsFromRational (num denom base : ℤ) : GroupState × ℤ :=
  let r1 := mulNumLoop (denom.toNat + 1) num denom base
  let r2 := if r1.2 < 0 then (r1.1 / base, r1.2 + 1) else r1
  let r3 := mulDenomLoop (r2.1.toNat + 2) r2.1 denom base
  ({ num := r2.1, denom := r3.1, base := base }, r2.2 + r3.2)

/-- One call of the `groups` closure:
`if num.Sign() == 0 { return nil }; num.Mul(num, base);
result.DivMod(num, denom, num)`. -/
def nextGroup (s : GroupState) : Option (ℤ × GroupState) :=
  if s.num = 0 then none
  else
    let n := s.num * s.base
    some (n / s.denom, { s with num := n % s.denom })

/-! ## `computeRootDigits`

The returned closure's captured state is embedded as `RootState`; the
inner `for remainder.Cmp(incr) >= 0` loop is embedded with fuel
`remainder.toNat + 1`, which is sufficient because each iteration
removes `incr ≥ 1` from the non-negative remainder (`digitLoop_spec`
below). -/

/-- State captured by the closure returned by `computeRootDigits`. -/
structure RootState where
  groups : GroupState
  remainder : ℤ
  incr : ℤ
  incr2 : ℤ
deriving DecidableEq

/-- The inner digit loop of `computeRootDigits`:
`for remainder.Cmp(incr) >= 0 { remainder.Sub(remainder, incr); digit++;
manager.Next(incr) }`.  Returns the final remainder, manager state, and
digit count. -/
def digitLoop (kind : RootKind) : ℕ → ℤ → ℤ × ℤ → ℕ → ℤ × (ℤ × ℤ) × ℕ
  | 0, remainder, m, digit => (remainder, m, digit)
  | fuel + 1, remainder, m, digit =>
    if m.1 ≤ remainder then
      digitLoop kind fuel (remainder - m.1) (mgrNext kind m) (digit + 1)
    else (remainder, m, digit)

/-- One call of the closure returned by `computeRootDigits`.  Returns
the yielded value (`-1` for end of digits, else the digit) and the
updated state. -/
def rootDigitsStep (kind : RootKind) (s : RootState) : ℤ × RootState :=
  match nextGroup s.groups with
  | none =>
    if s.remainder = 0 then (-1, s)
    else
      let r := s.remainder * mgrBase kind
      let l := digitLoop kind (r.toNat + 1) r (s.incr, s.incr2) 0
      let m := mgrNextDigit kind l.2.1
      ((l.2.2 : ℤ),
        { s with remainder := l.1, incr := m.1, incr2 := m.2 })
  | some (g, gs) =>
    let r := s.remainder * mgrBase kind + g
    let l := digitLoop kind (r.toNat + 1) r (s.incr, s.incr2) 0
    let m := mgrNextDigit kind l.2.1
    ((l.2.2 : ℤ),
      { groups := gs, remainder := l.1, incr := m.1, incr2 := m.2 })

/-- Initial digit-producer state for `nrootGenerator.Generate`:
`computeGroupsFromRational` followed by `computeRootDigits` with
`remainder = 0` and `incr = 1`.  Returns the state and the exponent. -/
def nrootInit (kind : RootKind) (num denom : ℤ) : RootState × ℤ :=
  let r := computeGroupsFromRational num denom (mgrBase kind)
  ({ groups := r.1, remainder := 0, incr := 1, incr2 := mgrIncr2Init kind },
    r.2)

/-- The digit-producer state after `k` calls. -/
def rootStateAt (kind : RootKind) (s0 : RootState) : ℕ → RootState
  | 0 => s0
  | k + 1 => (rootDigitsStep kind (rootStateAt kind s0 k)).2

/-- The value yielded by the `(k+1)`-th call of the digit producer
(0-based `k`). -/
def rootDigit (kind : RootKind) (s0 : RootState) (k : ℕ) : ℤ :=
  (rootDigitsStep kind (rootStateAt kind s0 k)).1

/-- The integer `d₁d₂…d_k` formed by the first `k` yielded values. -/
def prefixVal (kind : RootKind) (s0 : RootState) : ℕ → ℤ
  | 0 => 0
  | k + 1 => prefixVal kind s0 k * 10 + rootDigit kind s0 k

/-- `digitOutOfRange`: `d < 0 || d > 9`. -/
def digitOutOfRange (d : ℤ) : Prop := d < 0 ∨ 9 < d

instance (d : ℤ) : Decidable (digitOutOfRange d) := by
  unfold digitOutOfRange; infer_instance

/-- The digit list a memoizer accumulates from the producer: digits are
appended until the first out-of-range sentinel; `fuel` bounds the
number of producer calls made. -/
def mantissaDigits (kind : RootKind) : RootState → ℕ → List ℤ
  | _, 0 => []
  | s, fuel + 1 =>
    let r := rootDigitsStep kind s
    if digitOutOfRange r.1 then []
    else r.1 :: mantissaDigits kind r.2 fuel

/-! ## Properties of the normalization loops -/

theorem mulNumLoop_exit (fuel : ℕ) (num denom base : ℤ) (h : denom ≤ num) :
    mulNumLoop fuel num denom base = (num, 0) := by
  cases fuel with
  | zero => rfl
  | succ fuel => simp [mulNumLoop, not_lt.2 h]

/-- Characterization of the first normalization loop, given enough fuel:
it multiplies `num` by `base` a minimal number `j` of times so that
`denom ≤ num * base ^ j`, and returns exponent delta `-j`. -/
theorem mulNumLoop_spec (denom base : ℤ) :
    ∀ (fuel : ℕ) (num : ℤ), denom ≤ num * base ^ fuel →
    ∃ j : ℕ, mulNumLoop fuel num denom base = (num * base ^ j, -(j : ℤ)) ∧
      denom ≤ num * base ^ j ∧ (j = 0 → denom ≤ num) ∧
      (0 < j → num * base ^ (j - 1) < denom) := by
  intro fuel
  induction fuel with
  | zero =>
    intro num h
    simp only [pow_zero, mul_one] at h
    exact ⟨0, by simp [mulNumLoop], by simpa using h, fun _ => h,
      fun h0 => absurd h0 (lt_irrefl 0)⟩
  | succ fuel ih =>
    intro num h
    by_cases hlt : num < denom
    · have h' : denom ≤ num * base * base ^ fuel := by
        calc denom ≤ num * base ^ (fuel + 1) := h
        _ = num * base * base ^ fuel := by ring
      obtain ⟨j', hres, hge, _, hmin⟩ := ih (num * base) h'
      refine ⟨j' + 1, ?_, ?_, by omega, ?_⟩
      · simp only [mulNumLoop, if_pos hlt, hres, Prod.mk.injEq]
        refine ⟨by ring, by push_cast; ring⟩
      · calc denom ≤ num * base * base ^ j' := hge
        _ = num * base ^ (j' + 1) := by ring
      · intro _
        rcases Nat.eq_zero_or_pos j' with hj0 | hjpos
        · subst hj0; simpa using hlt
        · have := hmin hjpos
          have hj : j' + 1 - 1 = (j' - 1) + 1 := by omega
          rw [hj, pow_succ]
          calc num * (base ^ (j' - 1) * base)
              = num * base * base ^ (j' - 1) := by ring
          _ < denom := this
    · exact ⟨0, by simp [mulNumLoop, hlt], by simpa using not_lt.1 hlt,
        fun _ => not_lt.1 hlt, fun h0 => absurd h0 (lt_irrefl 0)⟩

/-- The fuel `denom.toNat + 1` used by `computeGroupsFromRational` is
sufficient for the first loop. -/
theorem mulNumLoop_fuel (num denom base : ℤ) (hnum : 0 < num)
    (hdenom : 0 < denom) (hbase : 2 ≤ base) :
    denom ≤ num * base ^ (denom.toNat + 1) := by
  have h1 : denom < 2 ^ (denom.toNat + 1) := by
    have := Nat.lt_two_pow denom.toNat
    have h2 : denom = (denom.toNat : ℤ) := (Int.toNat_of_nonneg hdenom.le).symm
    rw [h2]
    exact_mod_cast Nat.lt_of_lt_of_le this (Nat.pow_le_pow_right (by omega) (by omega))
  have h2 : (2 : ℤ) ^ (denom.toNat + 1) ≤ base ^ (denom.toNat + 1) :=
    pow_le_pow_left₀ (by omega) hbase _
  have h3 : base ^ (denom.toNat + 1) ≤ num * base ^ (denom.toNat + 1) :=
    le_mul_of_one_le_left (by positivity) hnum
  omega

theorem mulDenomLoop_exit (fuel : ℕ) (num denom base : ℤ) (h : num < denom) :
    mulDenomLoop fuel num denom base = (denom, 0) := by
  cases fuel with
  | zero => rfl
  | succ fuel => simp [mulDenomLoop, not_le.2 h]

/-- Characterization of the second normalization loop, given enough
fuel: it multiplies `denom` by `base` a minimal number `j` of times so
that `num < denom * base ^ j`, and returns exponent delta `j`. -/
theorem mulDenomLoop_spec (num base : ℤ) :
    ∀ (fuel : ℕ) (denom : ℤ), num < denom * base ^ fuel →
    ∃ j : ℕ, mulDenomLoop fuel num denom base = (denom * base ^ j, (j : ℤ)) ∧
      num < denom * base ^ j ∧ (j = 0 → num < denom) ∧
      (0 < j → denom * base ^ (j - 1) ≤ num) := by
  intro fuel
  induction fuel with
  | zero =>
    intro denom h
    simp only [pow_zero, mul_one] at h
    exact ⟨0, by simp [mulDenomLoop], by simpa using h, fun _ => h,
      fun h0 => absurd h0 (lt_irrefl 0)⟩
  | succ fuel ih =>
    intro denom h
    by_cases hle : denom ≤ num
    · have h' : num < denom * base * base ^ fuel := by
        calc num < denom * base ^ (fuel + 1) := h
        _ = denom * base * base ^ fuel := by ring
      obtain ⟨j', hres, hgt, _, hmin⟩ := ih (denom * base) h'
      refine ⟨j' + 1, ?_, ?_, by omega, ?_⟩
      · simp only [mulDenomLoop, if_pos hle, hres, Prod.mk.injEq]
        refine ⟨by ring, by push_cast; ring⟩
      · calc num < denom * base * base ^ j' := hgt
        _ = denom * base ^ (j' + 1) := by ring
      · intro _
        rcases Nat.eq_zero_or_pos j' with hj0 | hjpos
        · subst hj0; simpa using hle
        · have := hmin hjpos
          have hj : j' + 1 - 1 = (j' - 1) + 1 := by omega
          rw [hj, pow_succ]
          calc denom * (base ^ (j' - 1) * base)
              = denom * base * base ^ (j' - 1) := by ring
          _ ≤ num := this
    · exact ⟨0, by simp [mulDenomLoop, hle], by simpa using not_le.1 hle,
        fun _ => not_le.1 hle, fun h0 => absurd h0 (lt_irrefl 0)⟩

/-- The fuel `num.toNat + 2` used by `computeGroupsFromRational` is
sufficient for the second loop. -/
theorem mulDenomLoop_fuel (num denom base : ℤ) (hnum : 0 ≤ num)
    (hdenom : 0 < denom) (hbase : 2 ≤ base) :
    num < denom * base ^ (num.toNat + 2) := by
  have h1 : num < 2 ^ (num.toNat + 2) := by
    have := Nat.lt_two_pow num.toNat
    have h2 : num = (num.toNat : ℤ) := (Int.toNat_of_nonneg hnum).symm
    rw [h2]
    exact_mod_cast Nat.lt_of_lt_of_le this (Nat.pow_le_pow_right (by omega) (by omega))
  have h2 : (2 : ℤ) ^ (num.toNat + 2) ≤ base ^ (num.toNat + 2) :=
    pow_le_pow_left₀ (by omega) hbase _
  have h3 : base ^ (num.toNat + 2) ≤ denom * base ^ (num.toNat + 2) :=
    le_mul_of_one_le_left (by positivity) hdenom
  omega

/-- Full characterization of `computeGroupsFromRational` for positive
inputs: the returned state `(num₀, D, base)` satisfies
`0 < num₀ < D ≤ num₀·base` (so `num₀/D ∈ [1/base, 1)`), and the
original radicand equals `num₀/D · base^exp`. -/
theorem computeGroupsFromRational_spec (num denom base : ℤ) (hnum : 0 < num)
    (hdenom : 0 < denom) (hbase : 2 ≤ base) :
    (computeGroupsFromRational num denom base).1.base = base ∧
    0 < (computeGroupsFromRational num denom base).1.num ∧
    (computeGroupsFromRational num denom base).1.num <
      (computeGroupsFromRational num denom base).1.denom ∧
    (computeGroupsFromRational num denom base).1.denom ≤
      (computeGroupsFromRational num denom base).1.num * base ∧
    ((computeGroupsFromRational num denom base).1.num : ℚ) /
        ((computeGroupsFromRational num denom base).1.denom : ℚ) *
        (base : ℚ) ^ (computeGroupsFromRational num denom base).2 =
      (num : ℚ) / (denom : ℚ) := by
  have hbase0 : (0 : ℤ) < base := by omega
  have hbQ : (base : ℚ) ≠ 0 := by exact_mod_cast hbase0.ne'
  have hdQ : (denom : ℚ) ≠ 0 := by exact_mod_cast hdenom.ne'
  by_cases hcase : num < denom
  · -- first loop runs at least once; second loop does not run
    obtain ⟨j, hres, hge, hj0, hmin⟩ :=
      mulNumLoop_spec denom base (denom.toNat + 1) num
        (mulNumLoop_fuel num denom base hnum hdenom hbase)
    have hjne : j ≠ 0 := fun h => absurd (hj0 h) (not_le.2 hcase)
    obtain ⟨i, rfl⟩ : ∃ i, j = i + 1 := ⟨j - 1, by omega⟩
    have hminj : num * base ^ i < denom := by
      simpa using hmin (Nat.succ_pos i)
    -- the undo step divides exactly once by base
    have hundo : num * base ^ (i + 1) / base = num * base ^ i := by
      rw [pow_succ, ← mul_assoc]
      exact Int.mul_ediv_cancel _ (by omega)
    have hn2pos : 0 < num * base ^ i := by positivity
    -- the second loop exits immediately
    obtain ⟨j', hres', hgt', _, hmin'⟩ :=
      mulDenomLoop_spec (num * base ^ i) base
        ((num * base ^ i).toNat + 2) denom
        (mulDenomLoop_fuel _ denom base hn2pos.le hdenom hbase)
    have hj'0 : j' = 0 := by
      by_contra h
      have hpos' : 0 < j' := Nat.pos_of_ne_zero h
      have h2 := hmin' hpos'
      have h1 : denom ≤ denom * base ^ (j' - 1) :=
        le_mul_of_one_le_right hdenom.le (one_le_pow₀ (by omega))
      omega
    subst hj'0
    rw [pow_zero, mul_one, Nat.cast_zero] at hres'
    rw [pow_zero, mul_one] at hgt'
    have hcomp : computeGroupsFromRational num denom base =
        ({ num := num * base ^ i, denom := denom, base := base },
          -(i : ℤ)) := by
      simp only [computeGroupsFromRational, hres]
      split
      · simp only [hundo, hres', Prod.mk.injEq]
        exact ⟨by trivial, by push_cast; ring⟩
      · rename_i hcond
        exfalso
        simp only [not_lt] at hcond
        omega
    rw [hcomp]
    refine ⟨rfl, hn2pos, hminj, ?_, ?_⟩
    · calc denom ≤ num * base ^ (i + 1) := hge
      _ = num * base ^ i * base := by ring
    · have hbp : (base : ℚ) ^ i ≠ 0 := pow_ne_zero _ hbQ
      rw [zpow_neg, zpow_natCast]
      push_cast
      field_simp
      ring
  · -- first loop does not run; second loop runs at least once
    have hle : denom ≤ num := not_lt.1 hcase
    have hres := mulNumLoop_exit (denom.toNat + 1) num denom base hle
    obtain ⟨j, hres', hgt, hj0, hmin⟩ :=
      mulDenomLoop_spec num base (num.toNat + 2) denom
        (mulDenomLoop_fuel num denom base hnum.le hdenom hbase)
    have hjne : j ≠ 0 := fun h => absurd (hj0 h) (not_lt.2 hle)
    obtain ⟨i, rfl⟩ : ∃ i, j = i + 1 := ⟨j - 1, by omega⟩
    have hminj : denom * base ^ i ≤ num := by
      simpa using hmin (Nat.succ_pos i)
    have hcomp : computeGroupsFromRational num denom base =
        ({ num := num, denom := denom * base ^ (i + 1), base := base },
          (i : ℤ) + 1) := by
      simp only [computeGroupsFromRational, hres]
      split
      · rename_i hcond
        exfalso
        omega
      · simp only [hres', Prod.mk.injEq]
        exact ⟨by trivial, by push_cast; ring⟩
    rw [hcomp]
    refine ⟨rfl, hnum, hgt, ?_, ?_⟩
    · calc denom * base ^ (i + 1) = denom * base ^ i * base := by ring
      _ ≤ num * base := mul_le_mul_of_nonneg_right hminj hbase0.le
    · have hbp : (base : ℚ) ^ (i + 1) ≠ 0 := pow_ne_zero _ hbQ
      have hexp : (i : ℤ) + 1 = ((i + 1 : ℕ) : ℤ) := by push_cast; ring
      rw [hexp, zpow_natCast]
      push_cast
      field_simp
      ring

/-! ## The pencil-and-paper invariant

The manager state always has the closed form `mgrAt kind w`, where `w`
is the root value accumulated so far (all completed digits, then the
units added within the current digit). -/

/-- The manager state corresponding to accumulated root value `w`:
for square roots `incr = 2w+1 = (w+1)² − w²`; for cube roots
`incr = 3w²+3w+1 = (w+1)³ − w³` and `incr2 = 6w+6`. -/
def mgrAt : RootKind → ℤ → ℤ × ℤ
  | .sq, w => (2 * w + 1, 0)
  | .cb, w => (3 * w ^ 2 + 3 * w + 1, 6 * w + 6)

theorem deg_pos (kind : RootKind) : 0 < deg kind := by
  cases kind <;> decide

theorem mgrBase_eq (kind : RootKind) : mgrBase kind = 10 ^ deg kind := by
  cases kind <;> decide

theorem mgrBase_two_le (kind : RootKind) : 2 ≤ mgrBase kind := by
  cases kind <;> decide

theorem mgrAt_fst_pos (kind : RootKind) (w : ℤ) (hw : 0 ≤ w) :
    1 ≤ (mgrAt kind w).1 := by
  cases kind
  · simp only [mgrAt]
    omega
  · simp only [mgrAt]
    nlinarith

theorem mgrNext_mgrAt (kind : RootKind) (w : ℤ) :
    mgrNext kind (mgrAt kind w) = mgrAt kind (w + 1) := by
  cases kind <;>
    simp only [mgrNext, mgrAt, sqrtNext, cubeNext, Prod.mk.injEq] <;>
    exact ⟨by ring, by ring⟩

theorem mgrNextDigit_mgrAt (kind : RootKind) (w : ℤ) :
    mgrNextDigit kind (mgrAt kind w) = mgrAt kind (10 * w) := by
  cases kind <;>
    simp only [mgrNextDigit, mgrAt, sqrtNextDigit, cubeNextDigit,
      Prod.mk.injEq] <;>
    exact ⟨by ring, by ring⟩

/-- `incr` at value `w` is the difference of consecutive `deg`-th
powers: subtracting it moves `w^deg` to `(w+1)^deg`. -/
theorem mgrAt_fst_eq (kind : RootKind) (w : ℤ) :
    (mgrAt kind w).1 = (w + 1) ^ deg kind - w ^ deg kind := by
  cases kind <;> simp only [mgrAt, deg] <;> ring

/-- Full characterization of the inner digit loop: starting from
remainder `G − w^deg` and manager state `mgrAt w`, with enough fuel, it
stops at the largest `wf ≥ w` whose `deg`-th power still fits in `G`. -/
theorem digitLoop_spec (kind : RootKind) :
    ∀ (fuel : ℕ) (G w : ℤ) (d : ℕ), 0 ≤ w → w ^ deg kind ≤ G →
    (G - w ^ deg kind).toNat < fuel →
    ∃ wf : ℤ, w ≤ wf ∧ wf ^ deg kind ≤ G ∧ G < (wf + 1) ^ deg kind ∧
      digitLoop kind fuel (G - w ^ deg kind) (mgrAt kind w) d =
        (G - wf ^ deg kind, mgrAt kind wf, d + (wf - w).toNat) := by
  intro fuel
  induction fuel with
  | zero =>
    intro G w d _ _ hfuel
    exact absurd hfuel (Nat.not_lt_zero _)
  | succ fuel ih =>
    intro G w d hw hwG hfuel
    by_cases hc : (mgrAt kind w).1 ≤ G - w ^ deg kind
    · have hincr := mgrAt_fst_eq kind w
      have hnext : (w + 1) ^ deg kind ≤ G := by
        rw [hincr] at hc
        linarith
      have hpos : 1 ≤ (mgrAt kind w).1 := mgrAt_fst_pos kind w hw
      have hfuel' : (G - (w + 1) ^ deg kind).toNat < fuel := by
        rw [hincr] at hpos
        omega
      obtain ⟨wf, hwwf, hfle, hflt, hres⟩ :=
        ih G (w + 1) (d + 1) (by omega) hnext hfuel'
      refine ⟨wf, by omega, hfle, hflt, ?_⟩
      rw [digitLoop, if_pos hc, mgrNext_mgrAt]
      have harg : G - w ^ deg kind - (mgrAt kind w).1 =
          G - (w + 1) ^ deg kind := by
        rw [hincr]; ring
      rw [harg, hres]
      have hd : d + 1 + (wf - (w + 1)).toNat = d + (wf - w).toNat := by
        omega
      rw [hd]
    · refine ⟨w, le_refl w, hwG, ?_, ?_⟩
      · rw [mgrAt_fst_eq] at hc
        omega
      · rw [digitLoop, if_neg hc]
        have : (w - w).toNat = 0 := by omega
        rw [this, Nat.add_zero]

/-- The ideal group prefix: `Gk k` is the integer formed by the first
`k` base-`b` groups of `num0/D`, i.e. `⌊num0·b^k/D⌋`. -/
def Gk (num0 D b : ℤ) (k : ℕ) : ℤ := num0 * b ^ k / D

/-- The running numerator of the group stream after `k` groups:
`num0·b^k mod D`. -/
def Rk (num0 D b : ℤ) (k : ℕ) : ℤ := num0 * b ^ k % D

theorem Gk_Rk_eq (num0 D b : ℤ) (k : ℕ) :
    D * Gk num0 D b k + Rk num0 D b k = num0 * b ^ k :=
  Int.ediv_add_emod _ _

theorem Rk_nonneg (num0 D b : ℤ) (hD : 0 < D) (k : ℕ) :
    0 ≤ Rk num0 D b k :=
  Int.emod_nonneg _ (by omega)

theorem Rk_lt (num0 D b : ℤ) (hD : 0 < D) (k : ℕ) :
    Rk num0 D b k < D :=
  Int.emod_lt_of_pos _ hD

/-- One group step of the ideal quantities. -/
theorem Gk_succ (num0 D b : ℤ) (hD : 0 < D) (k : ℕ) :
    Gk num0 D b (k + 1) =
      Gk num0 D b k * b + Rk num0 D b k * b / D ∧
    Rk num0 D b (k + 1) = Rk num0 D b k * b % D := by
  have hsplit : num0 * b ^ (k + 1) =
      Rk num0 D b k * b + Gk num0 D b k * b * D := by
    have h := Gk_Rk_eq num0 D b k
    calc num0 * b ^ (k + 1) = num0 * b ^ k * b := by ring
    _ = (D * Gk num0 D b k + Rk num0 D b k) * b := by rw [h]
    _ = Rk num0 D b k * b + Gk num0 D b k * b * D := by ring
  constructor
  · rw [Gk, hsplit, Int.add_mul_ediv_right _ _ (by omega : D ≠ 0)]
    rw [Gk, Rk]
    ring
  · rw [Rk, hsplit, Int.add_mul_emod_self]


/-- The invariant carried from one digit to the next, relating the
producer state after `k` calls to the ideal quantities `Gk`, `Rk` and
the emitted prefix `prefixVal k`. -/
def Inv (kind : RootKind) (num0 D : ℤ) (s0 : RootState) (k : ℕ) : Prop :=
  (rootStateAt kind s0 k).groups =
      { num := Rk num0 D (mgrBase kind) k, denom := D,
        base := mgrBase kind } ∧
  (rootStateAt kind s0 k).remainder =
      Gk num0 D (mgrBase kind) k - prefixVal kind s0 k ^ deg kind ∧
  ((rootStateAt kind s0 k).incr, (rootStateAt kind s0 k).incr2) =
      mgrAt kind (10 * prefixVal kind s0 k) ∧
  0 ≤ prefixVal kind s0 k ∧
  prefixVal kind s0 k ^ deg kind ≤ Gk num0 D (mgrBase kind) k ∧
  Gk num0 D (mgrBase kind) k < (prefixVal kind s0 k + 1) ^ deg kind

/-- The invariant holds initially for a normalized state
(`0 ≤ num0 < D`). -/
theorem Inv_zero (kind : RootKind) (num0 D : ℤ) (h0 : 0 ≤ num0)
    (hlt : num0 < D) :
    Inv kind num0 D
      { groups := { num := num0, denom := D, base := mgrBase kind },
        remainder := 0, incr := 1, incr2 := mgrIncr2Init kind } 0 := by
  have hG0 : Gk num0 D (mgrBase kind) 0 = 0 := by
    rw [Gk, pow_zero, mul_one]
    exact Int.ediv_eq_zero_of_lt h0 hlt
  have hR0 : Rk num0 D (mgrBase kind) 0 = num0 := by
    rw [Rk, pow_zero, mul_one]
    exact Int.emod_eq_of_lt h0 hlt
  refine ⟨?_, ?_, ?_, le_refl 0, ?_, ?_⟩
  · simp [rootStateAt, hR0]
  · simp [rootStateAt, prefixVal, hG0, zero_pow (deg_pos kind).ne']
  · cases kind <;> simp [rootStateAt, prefixVal, mgrAt, mgrIncr2Init,
      cubeIncr2Init]
  · simp [prefixVal, hG0, zero_pow (deg_pos kind).ne']
  · simp [prefixVal, hG0]

/-- The invariant is preserved by one producer call, provided that call
does not signal end of digits; the emitted digit is at most 9. -/
theorem Inv_step (kind : RootKind) (num0 D : ℤ) (hD : 0 < D)
    (s0 : RootState) (k : ℕ) (hInv : Inv kind num0 D s0 k)
    (hdig : 0 ≤ rootDigit kind s0 k) :
    Inv kind num0 D s0 (k + 1) ∧ rootDigit kind s0 k ≤ 9 := by
  obtain ⟨hg, hrem, hmgr, hv0, hle, hlt⟩ := hInv
  set s := rootStateAt kind s0 k with hsdef
  set v := prefixVal kind s0 k with hvdef
  have hb2 : 2 ≤ mgrBase kind := mgrBase_two_le kind
  have hbn : mgrBase kind = 10 ^ deg kind := mgrBase_eq kind
  have hnpos : 0 < deg kind := deg_pos kind
  have hR0 : 0 ≤ Rk num0 D (mgrBase kind) k :=
    Rk_nonneg num0 D (mgrBase kind) hD k
  have hRD : Rk num0 D (mgrBase kind) k < D :=
    Rk_lt num0 D (mgrBase kind) hD k
  obtain ⟨hGsucc, hRsucc⟩ := Gk_succ num0 D (mgrBase kind) hD k
  have hg0 : 0 ≤ Rk num0 D (mgrBase kind) k * mgrBase kind / D :=
    Int.ediv_nonneg (mul_nonneg hR0 (by omega)) (by omega)
  have hgb : Rk num0 D (mgrBase kind) k * mgrBase kind / D < mgrBase kind := by
    rw [Int.ediv_lt_iff_lt_mul hD]
    calc Rk num0 D (mgrBase kind) k * mgrBase kind < D * mgrBase kind :=
      mul_lt_mul_of_pos_right hRD (by omega)
    _ = mgrBase kind * D := by ring
  have hwn : (10 * v) ^ deg kind = v ^ deg kind * mgrBase kind := by
    rw [hbn, mul_pow]; ring
  have hv10 : (0 : ℤ) ≤ 10 * v := by omega
  have hwG : (10 * v) ^ deg kind ≤ Gk num0 D (mgrBase kind) (k + 1) := by
    rw [hwn, hGsucc]
    have h1 : v ^ deg kind * mgrBase kind ≤
        Gk num0 D (mgrBase kind) k * mgrBase kind :=
      mul_le_mul_of_nonneg_right hle (by omega)
    omega
  have hG'lt : Gk num0 D (mgrBase kind) (k + 1) < (10 * (v + 1)) ^ deg kind := by
    have h1 : Gk num0 D (mgrBase kind) k * mgrBase kind ≤
        ((v + 1) ^ deg kind - 1) * mgrBase kind :=
      mul_le_mul_of_nonneg_right (by linarith) (by omega)
    have h2 : (10 * (v + 1)) ^ deg kind = (v + 1) ^ deg kind * mgrBase kind := by
      rw [hbn, mul_pow]; ring
    rw [h2, hGsucc]
    nlinarith
  have hkey : ∃ wf : ℤ, 10 * v ≤ wf ∧
      wf ^ deg kind ≤ Gk num0 D (mgrBase kind) (k + 1) ∧
      Gk num0 D (mgrBase kind) (k + 1) < (wf + 1) ^ deg kind ∧
      wf < 10 * v + 10 ∧
      rootDigitsStep kind s =
        (((wf - 10 * v).toNat : ℤ),
          { groups := { num := Rk num0 D (mgrBase kind) (k + 1),
                        denom := D, base := mgrBase kind },
            remainder := Gk num0 D (mgrBase kind) (k + 1) - wf ^ deg kind,
            incr := (mgrAt kind (10 * wf)).1,
            incr2 := (mgrAt kind (10 * wf)).2 }) := by
    have hwf9 : ∀ wf : ℤ, 10 * v ≤ wf →
        wf ^ deg kind ≤ Gk num0 D (mgrBase kind) (k + 1) →
        wf < 10 * v + 10 := by
      intro wf hwle hfle
      by_contra hcon
      push_neg at hcon
      have hp : (10 * v + 10) ^ deg kind ≤ wf ^ deg kind :=
        pow_le_pow_left₀ (by omega) hcon (deg kind)
      have he : (10 * (v + 1)) = 10 * v + 10 := by ring
      rw [← he] at hp
      linarith
    by_cases hr0 : Rk num0 D (mgrBase kind) k = 0
    · have hng : nextGroup s.groups = none := by
        rw [hg]
        simp [nextGroup, hr0]
      by_cases hrem0 : s.remainder = 0
      · exfalso
        have hminus : rootDigit kind s0 k = -1 := by
          rw [rootDigit, ← hsdef]
          simp [rootDigitsStep, hng, hrem0]
        omega
      · have hrin : s.remainder * mgrBase kind =
            Gk num0 D (mgrBase kind) (k + 1) - (10 * v) ^ deg kind := by
          rw [hrem, hwn, hGsucc, hr0]
          simp
          ring
        obtain ⟨wf, hwwf, hfle, hflt, hloop⟩ :=
          digitLoop_spec kind
            ((Gk num0 D (mgrBase kind) (k + 1) - (10 * v) ^ deg kind).toNat + 1)
            (Gk num0 D (mgrBase kind) (k + 1)) (10 * v) 0
            hv10 hwG (Nat.lt_succ_self _)
        have hRk1 : Rk num0 D (mgrBase kind) (k + 1) = 0 := by
          rw [hRsucc, hr0]; simp
        have hgroups : s.groups =
            { num := Rk num0 D (mgrBase kind) (k + 1), denom := D,
              base := mgrBase kind } := by
          rw [hg, hr0, hRk1]
        refine ⟨wf, hwwf, hfle, hflt, hwf9 wf hwwf hfle, ?_⟩
        simp only [rootDigitsStep, hng, if_neg hrem0, hmgr, hrin, hloop,
          mgrNextDigit_mgrAt, Nat.zero_add]
        rw [hgroups]
    · have hng : nextGroup s.groups =
          some (Rk num0 D (mgrBase kind) k * mgrBase kind / D,
            { num := Rk num0 D (mgrBase kind) (k + 1), denom := D,
              base := mgrBase kind }) := by
        rw [hg]
        simp only [nextGroup, if_neg hr0]
        rw [hRsucc]
      have hrin : s.remainder * mgrBase kind +
            Rk num0 D (mgrBase kind) k * mgrBase kind / D =
          Gk num0 D (mgrBase kind) (k + 1) - (10 * v) ^ deg kind := by
        rw [hrem, hwn, hGsucc]
        ring
      obtain ⟨wf, hwwf, hfle, hflt, hloop⟩ :=
        digitLoop_spec kind
          ((Gk num0 D (mgrBase kind) (k + 1) - (10 * v) ^ deg kind).toNat + 1)
          (Gk num0 D (mgrBase kind) (k + 1)) (10 * v) 0
          hv10 hwG (Nat.lt_succ_self _)
      refine ⟨wf, hwwf, hfle, hflt, hwf9 wf hwwf hfle, ?_⟩
      simp only [rootDigitsStep, hng, hmgr, hrin, hloop,
        mgrNextDigit_mgrAt, Nat.zero_add]
  obtain ⟨wf, hwwf, hfle, hflt, hwlt, hstep⟩ := hkey
  have hdigit : rootDigit kind s0 k = wf - 10 * v := by
    rw [rootDigit, ← hsdef, hstep]
    exact Int.toNat_of_nonneg (by omega)
  have hpre : prefixVal kind s0 (k + 1) = wf := by
    simp only [prefixVal]
    rw [← hvdef, hdigit]
    ring
  have hstate : rootStateAt kind s0 (k + 1) = (rootDigitsStep kind s).2 := by
    rw [rootStateAt, ← hsdef]
  refine ⟨⟨?_, ?_, ?_, ?_, ?_, ?_⟩, ?_⟩
  · rw [hstate, hstep]
  · rw [hstate, hstep, hpre]
  · rw [hstate, hstep, hpre]
  · rw [hpre]; omega
  · rw [hpre]; exact hfle
  · rw [hpre]; exact hflt
  · rw [hdigit]; omega


/-- With all of the first `k` producer calls yielding digits (none
signalling end), the invariant holds after `k` calls. -/
theorem Inv_of_digits (kind : RootKind) (num0 D : ℤ) (hD : 0 < D)
    (s0 : RootState) (h0 : Inv kind num0 D s0 0) (k : ℕ)
    (hdig : ∀ i, i < k → 0 ≤ rootDigit kind s0 i) :
    Inv kind num0 D s0 k := by
  induction k with
  | zero => exact h0
  | succ k ih =>
    exact (Inv_step kind num0 D hD s0 k
      (ih fun i hi => hdig i (by omega)) (hdig k (by omega))).1

/-! ## From integer bounds to the rational root bounds -/

/-- Lower-bound bridge: with `b = 10^n`, the rational inequality
`(x·10^(exp−k))^n ≤ (num0/D)·b^exp` is equivalent to the integer
inequality `x^n·D ≤ num0·b^k`. -/
theorem nroot_le_iff (n : ℕ) (b : ℤ) (hb : b = 10 ^ n) (num0 D : ℤ)
    (hD : 0 < D) (exp : ℤ) (k : ℕ) (x : ℤ) :
    ((x : ℚ) * (10 : ℚ) ^ (exp - (k : ℤ))) ^ n ≤
        (num0 : ℚ) / (D : ℚ) * (b : ℚ) ^ exp ↔
      x ^ n * D ≤ num0 * b ^ k := by
  have hbpos : (0 : ℤ) < b := by rw [hb]; positivity
  have hbQ : (0 : ℚ) < (b : ℚ) := by exact_mod_cast hbpos
  have hDQ : (0 : ℚ) < (D : ℚ) := by exact_mod_cast hD
  have hbq : (b : ℚ) = (10 : ℚ) ^ (n : ℤ) := by
    rw [hb]; push_cast; rw [zpow_natCast]
  have hzp : ((10 : ℚ) ^ (exp - (k : ℤ))) ^ n = (b : ℚ) ^ (exp - (k : ℤ)) := by
    rw [← zpow_natCast ((10 : ℚ) ^ (exp - (k : ℤ))) n, ← zpow_mul, hbq,
      ← zpow_mul, mul_comm]
  rw [mul_pow, hzp, zpow_sub₀ hbQ.ne', zpow_natCast]
  rw [show (x : ℚ) ^ n * ((b : ℚ) ^ exp / (b : ℚ) ^ k) =
      (x : ℚ) ^ n * (b : ℚ) ^ exp / (b : ℚ) ^ k from by ring]
  rw [show (num0 : ℚ) / (D : ℚ) * (b : ℚ) ^ exp =
      (num0 : ℚ) * (b : ℚ) ^ exp / (D : ℚ) from by ring]
  rw [div_le_div_iff₀ (by positivity) hDQ]
  rw [show (x : ℚ) ^ n * (b : ℚ) ^ exp * (D : ℚ) =
      (x : ℚ) ^ n * (D : ℚ) * (b : ℚ) ^ exp from by ring]
  rw [show (num0 : ℚ) * (b : ℚ) ^ exp * (b : ℚ) ^ k =
      (num0 : ℚ) * (b : ℚ) ^ k * (b : ℚ) ^ exp from by ring]
  rw [mul_le_mul_right (zpow_pos hbQ exp)]
  exact_mod_cast Iff.rfl

/-- Upper-bound bridge: with `b = 10^n`, the rational inequality
`(num0/D)·b^exp < (x·10^(exp−k))^n` is equivalent to the integer
inequality `num0·b^k < x^n·D`. -/
theorem nroot_lt_iff (n : ℕ) (b : ℤ) (hb : b = 10 ^ n) (num0 D : ℤ)
    (hD : 0 < D) (exp : ℤ) (k : ℕ) (x : ℤ) :
    (num0 : ℚ) / (D : ℚ) * (b : ℚ) ^ exp <
        ((x : ℚ) * (10 : ℚ) ^ (exp - (k : ℤ))) ^ n ↔
      num0 * b ^ k < x ^ n * D := by
  have hbpos : (0 : ℤ) < b := by rw [hb]; positivity
  have hbQ : (0 : ℚ) < (b : ℚ) := by exact_mod_cast hbpos
  have hDQ : (0 : ℚ) < (D : ℚ) := by exact_mod_cast hD
  have hbq : (b : ℚ) = (10 : ℚ) ^ (n : ℤ) := by
    rw [hb]; push_cast; rw [zpow_natCast]
  have hzp : ((10 : ℚ) ^ (exp - (k : ℤ))) ^ n = (b : ℚ) ^ (exp - (k : ℤ)) := by
    rw [← zpow_natCast ((10 : ℚ) ^ (exp - (k : ℤ))) n, ← zpow_mul, hbq,
      ← zpow_mul, mul_comm]
  rw [mul_pow, hzp, zpow_sub₀ hbQ.ne', zpow_natCast]
  rw [show (x : ℚ) ^ n * ((b : ℚ) ^ exp / (b : ℚ) ^ k) =
      (x : ℚ) ^ n * (b : ℚ) ^ exp / (b : ℚ) ^ k from by ring]
  rw [show (num0 : ℚ) / (D : ℚ) * (b : ℚ) ^ exp =
      (num0 : ℚ) * (b : ℚ) ^ exp / (D : ℚ) from by ring]
  rw [div_lt_div_iff₀ hDQ (by positivity)]
  rw [show (x : ℚ) ^ n * (b : ℚ) ^ exp * (D : ℚ) =
      (x : ℚ) ^ n * (D : ℚ) * (b : ℚ) ^ exp from by ring]
  rw [show (num0 : ℚ) * (b : ℚ) ^ exp * (b : ℚ) ^ k =
      (num0 : ℚ) * (b : ℚ) ^ k * (b : ℚ) ^ exp from by ring]
  rw [mul_lt_mul_right (zpow_pos hbQ exp)]
  exact_mod_cast Iff.rfl

/-- Integer core of the truncation property: after `k` digit-yielding
producer calls, `v_k^n·D ≤ num0·b^k < (v_k+1)^n·D`. -/
theorem truncated_root_aux (kind : RootKind) (num0 D : ℤ) (hD : 0 < D)
    (s0 : RootState) (h0 : Inv kind num0 D s0 0) (k : ℕ)
    (hdig : ∀ i, i < k → 0 ≤ rootDigit kind s0 i) :
    prefixVal kind s0 k ^ deg kind * D ≤ num0 * mgrBase kind ^ k ∧
    num0 * mgrBase kind ^ k < (prefixVal kind s0 k + 1) ^ deg kind * D := by
  obtain ⟨_, _, _, hv0, hle, hlt⟩ :=
    Inv_of_digits kind num0 D hD s0 h0 k hdig
  have hsum := Gk_Rk_eq num0 D (mgrBase kind) k
  have hr0 := Rk_nonneg num0 D (mgrBase kind) hD k
  have hrD := Rk_lt num0 D (mgrBase kind) hD k
  constructor
  · calc prefixVal kind s0 k ^ deg kind * D
        ≤ Gk num0 D (mgrBase kind) k * D :=
          mul_le_mul_of_nonneg_right hle hD.le
    _ = D * Gk num0 D (mgrBase kind) k := by ring
    _ ≤ D * Gk num0 D (mgrBase kind) k + Rk num0 D (mgrBase kind) k := by
          omega
    _ = num0 * mgrBase kind ^ k := hsum
  · have h1 : Gk num0 D (mgrBase kind) k + 1 ≤
        (prefixVal kind s0 k + 1) ^ deg kind := hlt
    have h2 : D * (Gk num0 D (mgrBase kind) k + 1) =
        D * Gk num0 D (mgrBase kind) k + D := by ring
    calc num0 * mgrBase kind ^ k
        = D * Gk num0 D (mgrBase kind) k + Rk num0 D (mgrBase kind) k :=
          hsum.symm
    _ < D * (Gk num0 D (mgrBase kind) k + 1) := by omega
    _ ≤ D * (prefixVal kind s0 k + 1) ^ deg kind :=
          mul_le_mul_of_nonneg_left h1 hD.le
    _ = (prefixVal kind s0 k + 1) ^ deg kind * D := by ring

/-- C1: for every rational radicand `num/denom` with `num > 0`,
`denom > 0` and root degree `n = deg kind ∈ {2, 3}`, the digit stream
produced by `computeGroupsFromRational` followed by `computeRootDigits`
with the matching root manager, together with the returned exponent
`exp`, satisfies, for every `k ≥ 1` all of whose first `k` producer
calls yielded digits: `(0.d₁…d_k·10^exp)ⁿ ≤ num/denom` and
`(0.d₁…d_k·10^exp + 10^(exp−k))ⁿ > num/denom` — here
`0.d₁…d_k·10^exp = prefixVal·10^(exp−k)` and the second bound is
`(prefixVal+1)·10^(exp−k)`.  The emitted digits are exactly the
truncated decimal digits of the true n-th root. -/
theorem digitProducer_truncated_root (kind : RootKind) (num denom : ℤ)
    (hnum : 0 < num) (hdenom : 0 < denom) (k : ℕ) (hk : 1 ≤ k)
    (hdig : ∀ i, i < k → 0 ≤ rootDigit kind (nrootInit kind num denom).1 i) :
    ((prefixVal kind (nrootInit kind num denom).1 k : ℚ) *
          (10 : ℚ) ^ ((nrootInit kind num denom).2 - (k : ℤ))) ^ deg kind ≤
        (num : ℚ) / (denom : ℚ) ∧
      (num : ℚ) / (denom : ℚ) <
        (((prefixVal kind (nrootInit kind num denom).1 k : ℚ) + 1) *
          (10 : ℚ) ^ ((nrootInit kind num denom).2 - (k : ℤ))) ^ deg kind := by
  obtain ⟨hbase, hpos, hlt, hble, hval⟩ :=
    computeGroupsFromRational_spec num denom (mgrBase kind) hnum hdenom
      (mgrBase_two_le kind)
  rcases hcg : computeGroupsFromRational num denom (mgrBase kind) with
    ⟨⟨n0, D0, b0⟩, e0⟩
  simp only [hcg] at hbase hpos hlt hble hval
  subst hbase
  have hD0 : 0 < D0 := lt_trans hpos hlt
  have hinit : (nrootInit kind num denom).1 =
      { groups := { num := n0, denom := D0, base := mgrBase kind },
        remainder := 0, incr := 1, incr2 := mgrIncr2Init kind } := by
    show ({ groups := (computeGroupsFromRational num denom (mgrBase kind)).1,
            remainder := 0, incr := 1,
            incr2 := mgrIncr2Init kind } : RootState) = _
    rw [hcg]
  have hexp : (nrootInit kind num denom).2 = e0 := by
    show (computeGroupsFromRational num denom (mgrBase kind)).2 = e0
    rw [hcg]
  have h0 : Inv kind n0 D0 (nrootInit kind num denom).1 0 := by
    rw [hinit]
    exact Inv_zero kind n0 D0 hpos.le hlt
  obtain ⟨hlow, hhigh⟩ :=
    truncated_root_aux kind n0 D0 hD0 (nrootInit kind num denom).1 h0 k hdig
  rw [hexp, ← hval]
  constructor
  · exact (nroot_le_iff (deg kind) (mgrBase kind) (mgrBase_eq kind) n0 D0
      hD0 e0 k (prefixVal kind (nrootInit kind num denom).1 k)).mpr hlow
  · have hc : ((prefixVal kind (nrootInit kind num denom).1 k + 1 : ℤ) : ℚ) =
        (prefixVal kind (nrootInit kind num denom).1 k : ℚ) + 1 := by
      push_cast
      ring
    rw [← hc]
    exact (nroot_lt_iff (deg kind) (mgrBase kind) (mgrBase_eq kind) n0 D0
      hD0 e0 k (prefixVal kind (nrootInit kind num denom).1 k + 1)).mpr hhigh

/-- C3: for every positive radicand `num/denom` and either root manager
(base 100 or 1000), the first digit yielded by `computeRootDigits` after
the normalization of `computeGroupsFromRational` lies in `[1, 9]` —
never 0 and never out of range — so a non-zero mantissa read as
`0.d₁d₂…` lies in `[0.1, 1)`. -/
theorem first_digit_in_range (kind : RootKind) (num denom : ℤ)
    (hnum : 0 < num) (hdenom : 0 < denom) :
    1 ≤ rootDigit kind (nrootInit kind num denom).1 0 ∧
    rootDigit kind (nrootInit kind num denom).1 0 ≤ 9 := by
  obtain ⟨hbase, hpos, hlt, hble, hval⟩ :=
    computeGroupsFromRational_spec num denom (mgrBase kind) hnum hdenom
      (mgrBase_two_le kind)
  rcases hcg : computeGroupsFromRational num denom (mgrBase kind) with
    ⟨⟨n0, D0, b0⟩, e0⟩
  simp only [hcg] at hbase hpos hlt hble hval
  subst hbase
  have hD0 : 0 < D0 := lt_trans hpos hlt
  have hinit : (nrootInit kind num denom).1 =
      { groups := { num := n0, denom := D0, base := mgrBase kind },
        remainder := 0, incr := 1, incr2 := mgrIncr2Init kind } := by
    show ({ groups := (computeGroupsFromRational num denom (mgrBase kind)).1,
            remainder := 0, incr := 1,
            incr2 := mgrIncr2Init kind } : RootState) = _
    rw [hcg]
  have h0 : Inv kind n0 D0 (nrootInit kind num denom).1 0 := by
    rw [hinit]
    exact Inv_zero kind n0 D0 hpos.le hlt
  have hgs : (nrootInit kind num denom).1.groups =
      { num := n0, denom := D0, base := mgrBase kind } := by rw [hinit]
  have hng : nextGroup (nrootInit kind num denom).1.groups =
      some (n0 * mgrBase kind / D0,
        { num := n0 * mgrBase kind % D0, denom := D0,
          base := mgrBase kind }) := by
    rw [hgs]
    simp [nextGroup, hpos.ne']
  have hd0 : 0 ≤ rootDigit kind (nrootInit kind num denom).1 0 := by
    rw [rootDigit]
    show 0 ≤ (rootDigitsStep kind (nrootInit kind num denom).1).1
    simp only [rootDigitsStep, hng]
    exact Int.natCast_nonneg _
  obtain ⟨hinv1, hle9⟩ :=
    Inv_step kind n0 D0 hD0 (nrootInit kind num denom).1 0 h0 hd0
  obtain ⟨_, _, _, hv01, hle1, hlt1⟩ := hinv1
  simp only [Nat.zero_add] at hv01 hle1 hlt1
  have hpre1 : prefixVal kind (nrootInit kind num denom).1 1 =
      rootDigit kind (nrootInit kind num denom).1 0 := by
    show prefixVal kind (nrootInit kind num denom).1 (0 + 1) = _
    simp [prefixVal]
  rw [hpre1] at hv01 hle1 hlt1
  have hG1 : 1 ≤ Gk n0 D0 (mgrBase kind) 1 := by
    rw [Gk, pow_one, Int.le_ediv_iff_mul_le hD0]
    omega
  refine ⟨?_, hle9⟩
  by_contra hcon
  push_neg at hcon
  have hz : rootDigit kind (nrootInit kind num denom).1 0 = 0 := by omega
  rw [hz, zero_add, one_pow] at hlt1
  omega

/-! ## Claim C2: the manager recurrences match the spec

The spec states the recurrences in closed form; the following
definitions transcribe the spec's words, and the theorem shows the
source-transcribed operations agree with them. -/

/-- Spec-side square-root `next`: "incr ← incr + 2". -/
def specSqrtNext (incr : ℤ) : ℤ := incr + 2

/-- Spec-side square-root `nextDigit`: "incr ← (incr − 1)·10 + 1". -/
def specSqrtNextDigit (incr : ℤ) : ℤ := (incr - 1) * 10 + 1

/-- Spec-side cube-root `next`: "incr ← incr + incr2; then
incr2 ← incr2 + 6". -/
def specCubeNext (incr incr2 : ℤ) : ℤ × ℤ := (incr + incr2, incr2 + 6)

/-- Spec-side cube-root `nextDigit`: "incr ← incr·100 − 45·incr2 + 171;
then incr2 ← incr2·10 − 54". -/
def specCubeNextDigit (incr incr2 : ℤ) : ℤ × ℤ :=
  (incr * 100 - 45 * incr2 + 171, incr2 * 10 - 54)

/-- C2: the `RootManager` recurrences in the source are exactly those of
the spec: square root uses `next : incr ← incr + 2`,
`nextDigit : incr ← (incr − 1)·10 + 1` with base 100; cube root, with
auxiliary state `incr2` initialized to 6, uses
`next : incr ← incr + incr2; incr2 ← incr2 + 6` and
`nextDigit : incr ← incr·100 − 45·incr2 + 171; incr2 ← incr2·10 − 54`
with base 1000. -/
theorem rootManager_recurrences_match_spec :
    (∀ incr : ℤ, sqrtNext incr = specSqrtNext incr) ∧
    (∀ incr : ℤ, sqrtNextDigit incr = specSqrtNextDigit incr) ∧
    sqrtBase = 100 ∧
    (∀ incr incr2 : ℤ, cubeNext incr incr2 = specCubeNext incr incr2) ∧
    (∀ incr incr2 : ℤ,
      cubeNextDigit incr incr2 = specCubeNextDigit incr incr2) ∧
    cubeBase = 1000 ∧
    cubeIncr2Init = 6 := by
  refine ⟨fun _ => rfl, fun _ => rfl, rfl, fun _ _ => rfl, fun i i2 => ?_,
    rfl, rfl⟩
  simp only [cubeNextDigit, specCubeNextDigit, Prod.mk.injEq]
  exact ⟨by ring, trivial⟩

/-! ## `numberSpec`, `memoizer` and `limitSpec` (mantissa view algebra)

A `memo` node models a `*memoizer`, carrying the digit list its
producer eventually yields (every reader of a memoizer observes a
prefix of this list; the background worker that fills it in is outside
the embedding).  A `limit` node models a `*limitSpec` with its delegate
and limit.  Structural equality of these values models Go pointer
equality of the `numberSpec` values the package can reach: `withLimit`
returns its argument pointer unchanged exactly when the embedding
returns a structurally equal value, and every freshly allocated
`&limitSpec{...}` differs structurally from the spec it was derived
from. -/

/-- Model of a `numberSpec` value (`nil` is `Option.none` one level
up). -/
inductive NumberSpecM where
  | memo (digits : List ℤ)
  | limit (delegate : NumberSpecM) (lim : ℤ)
deriving DecidableEq

/-- `withLimit(spec, limit)`: `nil` for a non-positive limit or a `nil`
spec; an already-limited spec is returned unchanged when its limit is
not larger, and flattened (reusing its delegate) otherwise; any other
spec is wrapped. -/
def withLimitM (spec : Option NumberSpecM) (lim : ℤ) : Option NumberSpecM :=
  if lim ≤ 0 then none
  else
    match spec with
    | none => none
    | some (NumberSpecM.limit d l) =>
      if l ≤ lim then some (NumberSpecM.limit d l)
      else some (NumberSpecM.limit d lim)
    | some s => some (NumberSpecM.limit s lim)

/-- Model of `FiniteNumber`: a mantissa (`none` models the nil spec of
a zero mantissa) and an exponent. -/
structure FiniteNumberM where
  mantissa : Option NumberSpecM
  exponent : ℤ
deriving DecidableEq

/-- The shared `zeroNumber = &FiniteNumber{}`. -/
def zeroNumberM : FiniteNumberM := { mantissa := none, exponent := 0 }

/-- `FiniteNumber.withMantissa`: returns the receiver itself for an
unchanged mantissa, the shared zero Number for a nil mantissa, and a
fresh `FiniteNumber` otherwise. -/
def withMantissaM (n : FiniteNumberM) (newMantissa : Option NumberSpecM) :
    FiniteNumberM :=
  if newMantissa = n.mantissa then n
  else if newMantissa = none then zeroNumberM
  else { mantissa := newMantissa, exponent := n.exponent }

/-- `FiniteNumber.WithSignificant`: panics on a negative limit
(modelled as `Except.error` carrying the panic message), otherwise
`withMantissa(mantissa.WithLimit(limit))`. -/
def withSignificantM (n : FiniteNumberM) (limit : ℤ) :
    Except String FiniteNumberM :=
  if limit < 0 then Except.error "limit must be non-negative"
  else Except.ok (withMantissaM n (withLimitM n.mantissa limit))

/-- C6: `WithSignificant` is monotone and idempotent at fixed points:
for `0 ≤ L ≤ L'`, `N.WithSignificant(L).WithSignificant(L')` returns
the identical object (modelled by structural equality, which coincides
with pointer equality on reachable values) as `N.WithSignificant(L)`;
a negative limit panics; limit 0 returns the shared zero Number (or\nthe receiver itself when it is already a zero Number). -/
theorem withSignificant_monotone_idempotent :
    (∀ (n : FiniteNumberM) (L L' : ℤ), 0 ≤ L → L ≤ L' →
      (withSignificantM n L).bind (fun m => withSignificantM m L') =
        withSignificantM n L) ∧
    (∀ (n : FiniteNumberM) (L : ℤ), L < 0 →
      withSignificantM n L = Except.error "limit must be non-negative") ∧
    (∀ n : FiniteNumberM, n.mantissa ≠ none →
      withSignificantM n 0 = Except.ok zeroNumberM) ∧
    (∀ n : FiniteNumberM, n.mantissa = none →
      withSignificantM n 0 = Except.ok n) := by
  refine ⟨?_, ?_, ?_, ?_⟩
  · intro n L L' h0 h1
    rcases n with ⟨mopt, e⟩
    by_cases hL : L ≤ 0
    · have hL0 : L = 0 := le_antisymm hL h0
      subst hL0
      cases mopt with
      | none =>
        simp [withSignificantM, withLimitM, withMantissaM, Except.bind,
          not_lt.2 h1]
      | some s =>
        simp [withSignificantM, withLimitM, withMantissaM, zeroNumberM,
          Except.bind, not_lt.2 h0, not_lt.2 h1]
    · have hLpos : 0 < L := by omega
      have hL'pos : 0 < L' := by omega
      cases mopt with
      | none =>
        simp [withSignificantM, withLimitM, withMantissaM, Except.bind,
          not_lt.2 h0, not_lt.2 (le_trans h0 h1), not_le.2 hLpos,
          not_le.2 hL'pos]
      | some s =>
        cases s with
        | memo ds =>
          simp [withSignificantM, withLimitM, withMantissaM, Except.bind,
            not_lt.2 h0, not_lt.2 (le_trans h0 h1), not_le.2 hLpos,
            not_le.2 hL'pos, h1]
        | limit d l =>
          by_cases hll : l ≤ L
          · simp [withSignificantM, withLimitM, withMantissaM, Except.bind,
              not_lt.2 h0, not_lt.2 (le_trans h0 h1), not_le.2 hLpos,
              not_le.2 hL'pos, hll, le_trans hll h1]
          · have hne : (some (NumberSpecM.limit d L) : Option NumberSpecM) ≠
                some (NumberSpecM.limit d l) := by
              intro h
              simp only [Option.some.injEq, NumberSpecM.limit.injEq] at h
              omega
            have hfirst : withSignificantM ⟨some (NumberSpecM.limit d l), e⟩ L =
                Except.ok ⟨some (NumberSpecM.limit d L), e⟩ := by
              simp only [withSignificantM, if_neg (not_lt.2 h0), withLimitM,
                if_neg (not_le.2 hLpos), if_neg hll]
              simp [withMantissaM, hne]
            have hsecond :
                withSignificantM ⟨some (NumberSpecM.limit d L), e⟩ L' =
                Except.ok ⟨some (NumberSpecM.limit d L), e⟩ := by
              simp only [withSignificantM, if_neg (not_lt.2 (le_trans h0 h1)),
                withLimitM, if_neg (not_le.2 hL'pos), if_pos h1]
              simp [withMantissaM]
            rw [hfirst]
            show withSignificantM ⟨some (NumberSpecM.limit d L), e⟩ L' =
              Except.ok ⟨some (NumberSpecM.limit d L), e⟩
            exact hsecond
  · intro n L hL
    simp [withSignificantM, hL]
  · intro n hne
    rcases n with ⟨mopt, e⟩
    cases mopt with
    | none => exact absurd rfl hne
    | some s =>
      simp [withSignificantM, withLimitM, withMantissaM, zeroNumberM]
  · intro n hz
    rcases n with ⟨mopt, e⟩
    cases mopt with
    | none => simp [withSignificantM, withLimitM, withMantissaM]
    | some s => exact absurd hz (by simp)


/-! ## `At` and `Scan` (reads)

`memoizer.At` is modelled against the digit list the memoizer's
producer eventually yields; a reader blocking in `wait` observes a
prefix of it.  The theorems below quantify over arbitrary digit lists,
so nothing they state depends on any digit being produced. -/

/-- `memoizer.At`: `-1` for a negative index, the stored digit when the
index is within the digit list, `-1` past its end. -/
def memoizerAt (digits : List ℤ) (index : ℤ) : ℤ :=
  if index < 0 then -1
  else if h : index.toNat < digits.length then digits.get ⟨index.toNat, h⟩
  else -1

/-- `At` on a `numberSpec`: a `memoizer` reads its digits, a
`limitSpec` answers `-1` at or beyond its limit and otherwise defers to
its delegate (the source also forces `delegate.At(limit)` for its side
effect before returning `-1`; the pure embedding drops that call). -/
def specAtM : NumberSpecM → ℤ → ℤ
  | .memo ds, index => memoizerAt ds index
  | .limit d lim, index => if lim ≤ index then -1 else specAtM d index

/-- `mantissa.At`: `-1` when the spec is nil, else the spec's `At`. -/
def mantissaAtM (m : Option NumberSpecM) (posit : ℤ) : ℤ :=
  match m with
  | none => -1
  | some s => specAtM s posit

/-- `FiniteNumber.At`. -/
def numberAtM (n : FiniteNumberM) (posit : ℤ) : ℤ :=
  mantissaAtM n.mantissa posit

/-- The `(index, digit)` pairs delivered by one `memoizer.Scan` loop:
from position `i` while `i < limit` and within the digit list, stopping
after the first pair for which `yield` returns false. -/
def scanPairs (digits : List ℤ) (yield : ℤ → ℤ → Bool) :
    ℕ → ℕ → ℤ → List (ℤ × ℤ)
  | 0, _, _ => []
  | fuel + 1, i, limit =>
    if h : i < digits.length ∧ (i : ℤ) < limit then
      if yield (i : ℤ) (digits.get ⟨i, h.1⟩) then
        ((i : ℤ), digits.get ⟨i, h.1⟩) ::
          scanPairs digits yield fuel (i + 1) limit
      else [((i : ℤ), digits.get ⟨i, h.1⟩)]
    else []

/-- `memoizer.Scan`: panics (modelled as `Except.error` carrying the
panic message) for a negative start index; otherwise delivers the
`(index, digit)` pairs of the range. -/
def memoizerScanM (digits : List ℤ) (index limit : ℤ)
    (yield : ℤ → ℤ → Bool) : Except String (List (ℤ × ℤ)) :=
  if index < 0 then Except.error "index must be non-negative"
  else Except.ok
    (scanPairs digits yield (digits.length - index.toNat) index.toNat limit)

/-- C9: for every Number (zero or non-zero, limited or not) and every
negative position `p`, `At(p)` returns `-1` without panicking and
without depending on any produced digit (the digit list is universally
quantified), even though `Scan` with a negative start index panics. -/
theorem at_negative_position (p : ℤ) (hp : p < 0) :
    (∀ digits : List ℤ, memoizerAt digits p = -1) ∧
    (∀ spec : NumberSpecM, specAtM spec p = -1) ∧
    (∀ n : FiniteNumberM, numberAtM n p = -1) ∧
    (∀ (digits : List ℤ) (limit : ℤ) (yield : ℤ → ℤ → Bool),
      memoizerScanM digits p limit yield =
        Except.error "index must be non-negative") := by
  have hmemo : ∀ digits : List ℤ, memoizerAt digits p = -1 := by
    intro digits
    simp [memoizerAt, hp]
  have hspec : ∀ spec : NumberSpecM, specAtM spec p = -1 := by
    intro spec
    induction spec with
    | memo ds => exact hmemo ds
    | limit d lim ih =>
      simp only [specAtM]
      split
      · rfl
      · exact ih
  refine ⟨hmemo, hspec, ?_, ?_⟩
  · intro n
    rcases n with ⟨mopt, e⟩
    cases mopt with
    | none => rfl
    | some s => exact hspec s
  · intro digits limit yield
    simp [memoizerScanM, hp]

/-! ## Context lifecycle and the Number factories

The outcome of a factory call is abstracted to what the claims
observe: a panic, an error return, the shared zero Number (in which
case no memoizer is created, no worker goroutine spawned, and nothing
registered with the context — those all happen inside `newMemoizeSpec`,
which the zero paths never reach), or a built Number (in which case
`newMemoizeSpec` registered one new memoizer with the context). -/

/-- Observable outcome of a Number-constructing factory call on an
explicit context. -/
inductive Outcome where
  | panicked (msg : String)
  | err (msg : String)
  | zero
  | made (exp : ℤ)
deriving DecidableEq

/-- `validDigits`: every entry is between 0 and 9. -/
def validDigitsM (x : List ℤ) : Prop := ∀ d ∈ x, ¬digitOutOfRange d

instance (x : List ℤ) : Decidable (validDigitsM x) := by
  unfold validDigitsM; infer_instance

/-- The first value produced by the digit closure of
`newRepeatingGenerator(fixed, repeating, exp).Generate()`. -/
def firstGenDigit (fixed repeating : List ℤ) : ℤ :=
  match fixed with
  | d :: _ => d
  | [] =>
    match repeating with
    | [] => -1
    | d :: _ => d

/-- `checkNumDenom` followed by `Context.nRootFrac` (shared by `Sqrt`,
`SqrtRat`, `SqrtBigInt`, `SqrtBigRat`, `CubeRoot`, `CubeRootRat`,
`CubeRootBigInt`, `CubeRootBigRat`): sign panics first, then the
zero-numerator early return of the shared zero Number, then the
closed-context panic inside `newMemoizeSpec`, else a built Number whose
exponent comes from the digit producer. -/
def nRootFracM (closed : Bool) (num denom : ℤ) (kind : RootKind) : Outcome :=
  if denom ≤ 0 then Outcome.panicked "Denominator must be positive"
  else if num < 0 then Outcome.panicked "Numerator must be non-negative"
  else if num = 0 then Outcome.zero
  else if closed then Outcome.panicked "Context closed"
  else Outcome.made (nrootInit kind num denom).2

/-- `Context.NewNumberForTesting`: empty input returns the shared zero
Number before validation; invalid digits and a leading zero are error
returns; only then does construction reach `newMemoizeSpec`, which
panics on a closed context. -/
def newNumberForTestingM (closed : Bool) (fixed repeating : List ℤ)
    (exp : ℤ) : Outcome :=
  if fixed = [] ∧ repeating = [] then Outcome.zero
  else if ¬(validDigitsM fixed ∧ validDigitsM repeating) then
    Outcome.err "NewNumberForTesting: digits must be between 0 and 9"
  else if firstGenDigit fixed repeating = 0 then
    Outcome.err "NewNumberForTesting: leading zeros not allowed in digits"
  else if closed then Outcome.panicked "Context closed"
  else Outcome.made exp

/-- `Context.NewNumber`, abstracted over the generator by the first
digit it yields and its exponent: a first digit of 0 or out of range
returns the shared zero Number; otherwise construction reaches
`newMemoizeSpec`. -/
def newNumberM (closed : Bool) (first : ℤ) (exp : ℤ) : Outcome :=
  if first = 0 ∨ digitOutOfRange first then Outcome.zero
  else if closed then Outcome.panicked "Context closed"
  else Outcome.made exp

/-- `Context.NewFiniteNumber`: delegates to `NewNumberForTesting` with
no repeating digits. -/
def newFiniteNumberM (closed : Bool) (fixed : List ℤ) (exp : ℤ) : Outcome :=
  newNumberForTestingM closed fixed [] exp


/-- C4 counterexample: the claim says every factory call on a closed
context whose arguments satisfy the factory's preconditions fails with
the "Context closed" panic, but `Sqrt(0)` on a closed context (radicand
0 satisfies `Sqrt`'s non-negativity precondition) returns the shared
zero Number: `nRootFrac` returns `zeroNumber` before ever consulting
the context. -/
theorem contextClosed_claim_counterexample :
    nRootFracM true 0 1 RootKind.sq = Outcome.zero ∧
    nRootFracM true 0 1 RootKind.sq ≠ Outcome.panicked "Context closed" := by
  refine ⟨rfl, ?_⟩
  intro h
  rw [show nRootFracM true 0 1 RootKind.sq = Outcome.zero from rfl] at h
  exact Outcome.noConfusion h

/-- C4 (amended): on a closed explicit context, every Number
constructing call that must create a new digit memoizer — positive
numerator for the root factories; valid digits, not both lists empty,
non-zero leading digit for `NewNumberForTesting` (and
`NewFiniteNumber`); first generator digit in [1, 9] for `NewNumber` —
fails with the "Context closed" panic rather than returning a
Number. -/
theorem contextClosed_blocks_nonzero_factories (num denom : ℤ)
    (kind : RootKind) (hnum : 0 < num) (hdenom : 0 < denom)
    (fixed repeating : List ℤ) (exp : ℤ)
    (hvf : validDigitsM fixed) (hvr : validDigitsM repeating)
    (hne : ¬(fixed = [] ∧ repeating = []))
    (hfirst : firstGenDigit fixed repeating ≠ 0)
    (first : ℤ) (hf0 : first ≠ 0) (hfr : ¬digitOutOfRange first) :
    nRootFracM true num denom kind = Outcome.panicked "Context closed" ∧
    newNumberForTestingM true fixed repeating exp =
      Outcome.panicked "Context closed" ∧
    newNumberM true first exp = Outcome.panicked "Context closed" ∧
    (repeating = [] →
      newFiniteNumberM true fixed exp =
        Outcome.panicked "Context closed") := by
  refine ⟨?_, ?_, ?_, ?_⟩
  · simp only [nRootFracM, if_neg (by omega : ¬denom ≤ 0),
      if_neg (by omega : ¬num < 0), if_neg (by omega : ¬num = 0)]
    rfl
  · simp only [newNumberForTestingM, if_neg hne]
    rw [if_neg (by simp [hvf, hvr]), if_neg hfirst]
    rfl
  · simp only [newNumberM, if_neg (by tauto : ¬(first = 0 ∨
      digitOutOfRange first))]
    rfl
  · intro hrep
    subst hrep
    have hfx : fixed ≠ [] := fun h => hne ⟨h, rfl⟩
    have hvnil : validDigitsM ([] : List ℤ) := fun d hd => absurd hd
      (List.not_mem_nil d)
    simp [newFiniteNumberM, newNumberForTestingM, hfx, hvf, hvnil, hfirst]

/-- C10: every factory call whose mathematical result is zero — the
root factories with numerator 0 (and positive denominator), the
testing factories with both digit lists empty, `NewNumber` with a first
generator digit of 0 or out of range — returns the single shared zero
`FiniteNumber` (exponent 0, empty mantissa), whether or not the context
is closed, and creates no memoizer, spawns no worker, and registers
nothing (`Outcome.zero` is returned on the paths that never reach
`newMemoizeSpec`). -/
theorem zero_result_factories_return_shared_zero (closed : Bool) :
    (∀ (denom : ℤ) (kind : RootKind), 0 < denom →
      nRootFracM closed 0 denom kind = Outcome.zero) ∧
    (∀ exp : ℤ, newNumberForTestingM closed [] [] exp = Outcome.zero) ∧
    (∀ exp : ℤ, newFiniteNumberM closed [] exp = Outcome.zero) ∧
    (∀ first exp : ℤ, first = 0 ∨ digitOutOfRange first →
      newNumberM closed first exp = Outcome.zero) ∧
    zeroNumberM.mantissa = none ∧ zeroNumberM.exponent = 0 := by
  refine ⟨?_, ?_, ?_, ?_, rfl, rfl⟩
  · intro denom kind hdenom
    simp [nRootFracM, if_neg (by omega : ¬denom ≤ 0)]
  · intro exp
    simp [newNumberForTestingM]
  · intro exp
    simp [newFiniteNumberM, newNumberForTestingM]
  · intro first exp h
    simp only [newNumberM, if_pos h]


/-! ## Format specs (`newFormatSpec`, `formatSpecForG`) -/

/-- Model of `formatSpec`. -/
structure FormatSpecM where
  sigDigits : ℤ
  exactDigitCount : Bool
  sci : Bool
  capital : Bool
deriving DecidableEq

/-- `gPrecision = 16`. -/
def gPrecisionM : ℤ := 16

/-- `bigExponent`: `exponent < -3 || exponent > 6`. -/
def bigExponentM (exponent : ℤ) : Bool :=
  decide (exponent < -3) || decide (6 < exponent)

/-- `formatSpecForG`: `sigDigits := precision`, bumped to 1 when 0;
scientific iff `sigDigits < exponent` or the exponent is big;
`exactDigitCount` stays false. -/
def formatSpecForGM (precision exponent : ℤ) (capital : Bool) :
    FormatSpecM :=
  let sigDigits := if precision = 0 then 1 else precision
  { sigDigits := sigDigits, exactDigitCount := false,
    sci := decide (sigDigits < exponent) || bigExponentM exponent,
    capital := capital }

/-- The `g`/`G`/`v` arm of `newFormatSpec`: a missing precision
defaults to `gPrecision`; `capital` is true exactly for the `G` verb.
The precision delivered by `fmt.State.Precision` is never negative, so
it is embedded as `Option ℕ`. -/
def newFormatSpecG (precision : Option ℕ) (exponent : ℤ)
    (capitalG : Bool) : FormatSpecM :=
  formatSpecForGM
    (match precision with
     | none => gPrecisionM
     | some p => (p : ℤ)) exponent capitalG

/-- Modelled from the spec: for the g, G and v verbs the resolved
format uses `sigDigits = max(precision, 1)` with precision defaulting
to 16, `exactDigitCount = false`, and scientific form exactly when
`sigDigits < exponent` or `exponent < -3` or `exponent > 6`. -/
def specFormatSpecForG (precision : Option ℕ) (exponent : ℤ)
    (capitalG : Bool) : FormatSpecM :=
  let p : ℤ :=
    match precision with
    | none => 16
    | some p => (p : ℤ)
  { sigDigits := max p 1, exactDigitCount := false,
    sci := decide (max p 1 < exponent) || decide (exponent < -3) ||
      decide (6 < exponent),
    capital := capitalG }

/-- C7: for the g, G and v verbs the resolved format spec agrees with
the spec's description: `sigDigits = max(precision, 1)` (precision
defaulting to 16), `exactDigitCount = false`, and scientific form
exactly when `sigDigits < exponent ∨ exponent < -3 ∨ exponent > 6`. -/
theorem formatSpecG_resolution (precision : Option ℕ) (exponent : ℤ)
    (capitalG : Bool) :
    newFormatSpecG precision exponent capitalG =
      specFormatSpecForG precision exponent capitalG := by
  cases precision with
  | none =>
    simp [newFormatSpecG, specFormatSpecForG, formatSpecForGM, gPrecisionM,
      bigExponentM, Bool.or_assoc]
  | some p =>
    rcases Nat.eq_zero_or_pos p with h | h
    · subst h
      simp [newFormatSpecG, specFormatSpecForG, formatSpecForGM,
        bigExponentM, Bool.or_assoc]
    · have h0 : ((p : ℤ)) ≠ 0 := by exact_mod_cast h.ne'
      have h1 : (1 : ℤ) ≤ (p : ℤ) := by exact_mod_cast h
      simp [newFormatSpecG, specFormatSpecForG, formatSpecForGM,
        bigExponentM, Bool.or_assoc, h0, max_eq_left h1]

/-! ## The fixed/scientific renderer (`formatter`, `printFixed`,
`printSci`, `String`)

The byte sink is modelled as the list of characters written so far
(`bufio` buffering changes only when bytes reach the underlying writer,
not which bytes are written). -/

/-- `'0' + byte(digit)`. -/
def digitChar (d : ℤ) : Char := Char.ofNat (48 + d.toNat)

/-- `formatter.addLeadingZeros`: a `0`, and when `count > 0` a decimal
point followed by `count` zeros. -/
def addLeadingZerosM (count : ℤ) : List Char :=
  '0' :: (if count ≤ 0 then [] else '.' :: List.replicate count.toNat '0')

/-- Model of the `formatter` state: bytes written so far plus the
source struct's fields. -/
structure FormatterM where
  out : List Char
  sigDigits : ℤ
  exponent : ℤ
  exactDigitCount : Bool
  index : ℤ
deriving DecidableEq

/-- `formatter.CanConsume`: `index < sigDigits`. -/
def formatterCanConsume (f : FormatterM) : Bool :=
  decide (f.index < f.sigDigits)

/-- `formatter.add`: leading `0.00…` once before the first digit of a
non-positive exponent, the decimal point when `index` reaches the
exponent, then the digit itself. -/
def formatterAdd (f : FormatterM) (digit : ℤ) : FormatterM :=
  let out1 := if f.index = 0 ∧ f.exponent ≤ 0 then
      f.out ++ addLeadingZerosM (-f.exponent)
    else f.out
  let out2 := if f.index = f.exponent then out1 ++ ['.'] else out1
  { f with out := out2 ++ [digitChar digit], index := f.index + 1 }

/-- `fromMantissa`: feed digits while the formatter can consume. -/
def fromMantissaM : List ℤ → FormatterM → FormatterM
  | [], f => f
  | d :: ds, f =>
    if formatterCanConsume f then fromMantissaM ds (formatterAdd f d)
    else f

/-- The `for f.index < maxDigits` zero-padding loop of
`formatter.Finish`; `add` increments `index` by one, so the loop body
runs exactly `(maxDigits - index).toNat` times. -/
def formatterPad : ℕ → FormatterM → FormatterM
  | 0, f => f
  | n + 1, f => formatterPad n (formatterAdd f 0)

/-- `formatter.Finish`: pad with zeros up to `sigDigits`
(`exactDigitCount`) or up to the exponent, and emit the zero form when
nothing was written. -/
def formatterFinish (f : FormatterM) : List Char :=
  let maxDigits := if f.exactDigitCount then f.sigDigits else f.exponent
  let f1 := formatterPad (maxDigits - f.index).toNat f
  if f1.index = 0 then
    let count := if f1.exactDigitCount then f1.sigDigits - f1.exponent
      else -f1.exponent
    f1.out ++ addLeadingZerosM count
  else f1.out

/-- `formatSpec.printFixed` = `newFormatter` + `fromMantissa` +
`Finish`; `newFormatter` panics when `sigDigits < exponent`, modelled
as `none`. -/
def printFixedM (sigDigits exponent : ℤ) (exactDigitCount : Bool)
    (digits : List ℤ) : Option (List Char) :=
  if sigDigits < exponent then none
  else some (formatterFinish (fromMantissaM digits
    { out := [], sigDigits := sigDigits, exponent := exponent,
      exactDigitCount := exactDigitCount, index := 0 }))

/-- The exponent suffix `%+03d`: mandatory sign, at least two digits. -/
def plusPad3 (e : ℤ) : List Char :=
  let sign := if e < 0 then '-' else '+'
  let ds := Nat.toDigits 10 e.natAbs
  sign :: (if ds.length < 2 then List.replicate (2 - ds.length) '0' ++ ds
    else ds)

/-- `formatSpec.PrintNumber`: scientific = fixed form at exponent 0,
then the separator and the `%+03d` exponent; otherwise fixed form. -/
def printNumberM (fs : FormatSpecM) (digits : List ℤ) (exponent : ℤ) :
    Option (List Char) :=
  if fs.sci then
    match printFixedM fs.sigDigits 0 fs.exactDigitCount digits with
    | none => none
    | some cs =>
      some (cs ++ [(if fs.capital then 'E' else 'e')] ++ plusPad3 exponent)
  else printFixedM fs.sigDigits exponent fs.exactDigitCount digits

/-- `FiniteNumber.String`: `%g` via `formatSpecForG(gPrecision,
exponent, false)` over the mantissa digits. -/
def numberStringM (digits : List ℤ) (exponent : ℤ) : Option String :=
  (printNumberM (formatSpecForGM gPrecisionM exponent false) digits
    exponent).map
    (fun cs => String.mk cs)

/-- C8: for the square root of 100489 (a perfect square) the digit
producer returns exponent 3 and mantissa digits 3, 1, 7 followed by the
end sentinel; `String()` renders `"317"`, `Exponent()` is 3, and
`At(3)` — through `memoizer.At` on the three-digit mantissa — returns
`-1`. -/
theorem sqrt_100489_scenario :
    (nrootInit RootKind.sq 100489 1).2 = 3 ∧
    mantissaDigits RootKind.sq (nrootInit RootKind.sq 100489 1).1 4 =
      [3, 1, 7] ∧
    rootDigit RootKind.sq (nrootInit RootKind.sq 100489 1).1 3 = -1 ∧
    numberStringM [3, 1, 7] 3 = some "317" ∧
    numberAtM { mantissa := some (NumberSpecM.memo [3, 1, 7]),
                exponent := 3 } 3 = -1 := by
  refine ⟨by decide, by decide, by decide, ?_, by decide⟩
  rfl


/-! ## Witnesses: concrete instantiations of the conditional theorems -/

/-- Witness for C1 at the square root of 2 with three digits
(1, 4, 1): `1.41² ≤ 2 < 1.42²`. -/
theorem digitProducer_truncated_root_witness :
    (0 : ℤ) < 2 ∧ (0 : ℤ) < 1 ∧ 1 ≤ 3 ∧
    (∀ i, i < 3 →
      0 ≤ rootDigit RootKind.sq (nrootInit RootKind.sq 2 1).1 i) ∧
    (((prefixVal RootKind.sq (nrootInit RootKind.sq 2 1).1 3 : ℚ) *
          (10 : ℚ) ^ ((nrootInit RootKind.sq 2 1).2 - ((3 : ℕ) : ℤ))) ^
        deg RootKind.sq ≤ (2 : ℚ) / (1 : ℚ) ∧
      (2 : ℚ) / (1 : ℚ) <
        (((prefixVal RootKind.sq (nrootInit RootKind.sq 2 1).1 3 : ℚ) + 1) *
          (10 : ℚ) ^ ((nrootInit RootKind.sq 2 1).2 - ((3 : ℕ) : ℤ))) ^
        deg RootKind.sq) :=
  ⟨by decide, by decide, by decide, by decide,
    digitProducer_truncated_root RootKind.sq 2 1 (by decide) (by decide) 3
      (by decide) (by decide)⟩

/-- Witness for C3 at the cube root of 3: the first digit is 1. -/
theorem first_digit_in_range_witness :
    (0 : ℤ) < 3 ∧ (0 : ℤ) < 1 ∧
    (1 ≤ rootDigit RootKind.cb (nrootInit RootKind.cb 3 1).1 0 ∧
      rootDigit RootKind.cb (nrootInit RootKind.cb 3 1).1 0 ≤ 9) :=
  ⟨by decide, by decide,
    first_digit_in_range RootKind.cb 3 1 (by decide) (by decide)⟩

/-- Witness for the amended C4 at concrete closed-context calls. -/
theorem contextClosed_blocks_nonzero_factories_witness :
    (0 : ℤ) < 2 ∧ (0 : ℤ) < 1 ∧ validDigitsM [1, 2] ∧ validDigitsM [3] ∧
    ¬(([1, 2] : List ℤ) = [] ∧ ([3] : List ℤ) = []) ∧
    firstGenDigit [1, 2] [3] ≠ 0 ∧ (7 : ℤ) ≠ 0 ∧
    ¬digitOutOfRange 7 ∧
    (nRootFracM true 2 1 RootKind.sq = Outcome.panicked "Context closed" ∧
      newNumberForTestingM true [1, 2] [3] 5 =
        Outcome.panicked "Context closed" ∧
      newNumberM true 7 5 = Outcome.panicked "Context closed" ∧
      (([3] : List ℤ) = [] →
        newFiniteNumberM true [1, 2] 5 =
          Outcome.panicked "Context closed")) :=
  ⟨by decide, by decide, by decide, by decide, by decide, by decide,
    by decide, by decide,
    contextClosed_blocks_nonzero_factories 2 1 RootKind.sq (by decide)
      (by decide) [1, 2] [3] 5 (by decide) (by decide) (by decide)
      (by decide) 7 (by decide) (by decide)⟩

/-- Witness for C6 at a memoizer-backed number with limits 2 ≤ 5. -/
theorem withSignificant_monotone_idempotent_witness :
    ((0 : ℤ) ≤ 2 ∧ (2 : ℤ) ≤ 5 ∧
      (withSignificantM ⟨some (NumberSpecM.memo [1, 4, 1]), 1⟩ 2).bind
          (fun m => withSignificantM m 5) =
        withSignificantM ⟨some (NumberSpecM.memo [1, 4, 1]), 1⟩ 2) ∧
    ((-1 : ℤ) < 0 ∧
      withSignificantM ⟨some (NumberSpecM.memo [1, 4, 1]), 1⟩ (-1) =
        Except.error "limit must be non-negative") ∧
    ((some (NumberSpecM.memo [1, 4, 1]) : Option NumberSpecM) ≠ none ∧
      withSignificantM ⟨some (NumberSpecM.memo [1, 4, 1]), 1⟩ 0 =
        Except.ok zeroNumberM) ∧
    (zeroNumberM.mantissa = (none : Option NumberSpecM) ∧
      withSignificantM zeroNumberM 0 = Except.ok zeroNumberM) :=
  ⟨⟨by decide, by decide,
      withSignificant_monotone_idempotent.1
        ⟨some (NumberSpecM.memo [1, 4, 1]), 1⟩ 2 5 (by decide) (by decide)⟩,
    ⟨by decide,
      withSignificant_monotone_idempotent.2.1
        ⟨some (NumberSpecM.memo [1, 4, 1]), 1⟩ (-1) (by decide)⟩,
    ⟨by decide,
      withSignificant_monotone_idempotent.2.2.1
        ⟨some (NumberSpecM.memo [1, 4, 1]), 1⟩ (by decide)⟩,
    ⟨rfl,
      withSignificant_monotone_idempotent.2.2.2 zeroNumberM rfl⟩⟩

/-- Witness for C9 at position −2. -/
theorem at_negative_position_witness :
    (-2 : ℤ) < 0 ∧
    memoizerAt [5] (-2) = -1 ∧
    specAtM (NumberSpecM.limit (NumberSpecM.memo [5]) 1) (-2) = -1 ∧
    numberAtM zeroNumberM (-2) = -1 ∧
    memoizerScanM [5] (-2) 1 (fun _ _ => true) =
      Except.error "index must be non-negative" :=
  ⟨by decide,
    (at_negative_position (-2) (by decide)).1 [5],
    (at_negative_position (-2) (by decide)).2.1
      (NumberSpecM.limit (NumberSpecM.memo [5]) 1),
    (at_negative_position (-2) (by decide)).2.2.1 zeroNumberM,
    (at_negative_position (-2) (by decide)).2.2.2 [5] 1 (fun _ _ => true)⟩

/-- Witness for C10 at concrete zero-result factory calls on a closed
context. -/
theorem zero_result_factories_witness :
    (0 : ℤ) < 7 ∧ ((0 : ℤ) = 0 ∨ digitOutOfRange 0) ∧
    (nRootFracM true 0 7 RootKind.cb = Outcome.zero ∧
      newNumberForTestingM true [] [] 2 = Outcome.zero ∧
      newFiniteNumberM true [] 2 = Outcome.zero ∧
      newNumberM true 0 2 = Outcome.zero ∧
      zeroNumberM.mantissa = none ∧ zeroNumberM.exponent = 0) :=
  ⟨by decide, Or.inl rfl,
    (zero_result_factories_return_shared_zero true).1 7 RootKind.cb
      (by decide),
    (zero_result_factories_return_shared_zero true).2.1 2,
    (zero_result_factories_return_shared_zero true).2.2.1 2,
    (zero_result_factories_return_shared_zero true).2.2.2.1 0 2
      (Or.inl rfl),
    (zero_result_factories_return_shared_zero true).2.2.2.2.1,
    (zero_result_factories_return_shared_zero true).2.2.2.2.2⟩

end SqrtGo
